import Mathlib

/-!
Verification development for the robo-advisor rebalancer
(reference implementation: `bin/advisor.py`).

Embedding conventions:
* Python float arithmetic is modelled exactly over `ℚ` (the program only
  ever combines integer currency amounts, integer percentage bounds and
  the four arithmetic operations, so every quantity it manipulates is a
  rational number; the algebraic claims of the specification are stated
  for exact arithmetic).
* Python `int(x)` truncates toward zero; this is `truncQ` below.
* Code that can raise (`ZeroDivisionError`, `KeyError`, `ValueError`,
  `min` or `max` of an empty sequence) is modelled in `Except Unit`.
* `math.sqrt` appears only in `calculate_distance`, whose value is used
  exclusively in comparisons when ranking candidates; since the square
  root is strictly monotone on nonnegative reals, the ranking is embedded
  with the radicand `calculate_distance_sq` (the sum of squared
  percentage deviations) and a bridging lemma about `Real.sqrt` relates
  the two orderings.
* Python dicts preserve insertion order, but no observable value of this
  program depends on the iteration order of an allocation dict (sums are
  commutative, the violation count is order independent, output rows are
  driven by the sorted target table); allocations are therefore embedded
  as one optional value per configured instrument, with a canonical
  `items` order.
-/

namespace Advisor

/-- Sequencing helper: binding a success just applies the continuation. -/
lemma ok_bind {α β : Type} (a : α) (f : α → Except Unit β) :
    (Except.ok a >>= f) = f a := rfl

/-- Sequencing helper: an error short-circuits the continuation. -/
lemma err_bind {α β : Type} (f : α → Except Unit β) :
    ((Except.error () : Except Unit α) >>= f) = Except.error () := rfl

/-- Sequencing helper: `pure` builds a success. -/
lemma pure_eq_ok {α : Type} (a : α) : (pure a : Except Unit α) = Except.ok a := rfl

/-- Effectful map over a list, left to right, stopping at the first
error: the evaluation order of a Python list comprehension whose body
can raise. -/
def mapME {α β : Type} (f : α → Except Unit β) : List α → Except Unit (List β)
  | [] => Except.ok []
  | x :: xs => do
    let y ← f x
    let ys ← mapME f xs
    Except.ok (y :: ys)

/-- Effectful left fold over a list, stopping at the first error: the
evaluation order of a Python `for` loop whose body can raise. -/
def foldlME {α β : Type} (f : β → α → Except Unit β) (init : β) : List α → Except Unit β
  | [] => Except.ok init
  | x :: xs => do
    let b ← f init x
    foldlME f b xs

/-- Position in the portfolio: the `(min, tgt, max)` percentage bounds
from the `Position` named tuple. -/
structure Position where
  min : ℤ
  tgt : ℤ
  max : ℤ
deriving DecidableEq

/-- The `TARGET` table of `bin/advisor.py`, in its insertion order. -/
def TARGET : List (String × Position) :=
  [("world", ⟨72, 80, 100⟩), ("em imi", ⟨8, 10, 12⟩), ("world sc", ⟨8, 10, 12⟩)]

/-- The configured instrument names, in `TARGET` insertion order. -/
def namesList : List String := ["world", "em imi", "world sc"]

/-- Lookup in `TARGET`; `none` models the `KeyError` raised by
`TARGET[k]` for an unconfigured name. -/
def targetPos? (k : String) : Option Position := TARGET.lookup k

/-- Total lookup in `TARGET`, used only where the surrounding code has
already established that `k` is configured (a miss would have raised
`KeyError` earlier). -/
def targetPos (k : String) : Position := (targetPos? k).getD ⟨0, 0, 0⟩

/-- The `CLUSTERS` set of `bin/advisor.py` (purchase groups, matched
against the comma-joined candidate description). -/
def CLUSTERS : List String := ["world", "em imi, world sc"]

/-- An `Allocation`: at most one monetary value per configured
instrument (`none` models absence of the key from the dict). -/
structure Alloc where
  world : Option ℚ
  em_imi : Option ℚ
  world_sc : Option ℚ
deriving DecidableEq

/-- Dict read `allocation.get(k)` / `allocation[k]`. -/
def Alloc.get (a : Alloc) (k : String) : Option ℚ :=
  if k = "world" then a.world
  else if k = "em imi" then a.em_imi
  else if k = "world sc" then a.world_sc
  else none

/-- Dict write `allocation[k] = v` for a configured key `k` (the program
only ever assigns members of the configured instrument set). -/
def Alloc.set (a : Alloc) (k : String) (v : ℚ) : Alloc :=
  if k = "world" then { a with world := some v }
  else if k = "em imi" then { a with em_imi := some v }
  else if k = "world sc" then { a with world_sc := some v }
  else a

/-- The `allocation.items()` view: present keys with their values, in
the canonical instrument order (see the header note on dict order). -/
def Alloc.items (a : Alloc) : List (String × ℚ) :=
  (match a.world with | some v => [(("world" : String), v)] | none => [])
    ++ (match a.em_imi with | some v => [(("em imi" : String), v)] | none => [])
    ++ (match a.world_sc with | some v => [(("world sc" : String), v)] | none => [])

/-- The dict total `sum(allocation.values())`. -/
def Alloc.total (a : Alloc) : ℚ := (a.items.map Prod.snd).sum

/-- All values present in the allocation are nonnegative (the data-model
precondition on allocations). -/
def Alloc.Nonneg (a : Alloc) : Prop :=
  0 ≤ a.world.getD 0 ∧ 0 ≤ a.em_imi.getD 0 ∧ 0 ≤ a.world_sc.getD 0

/-- Python `int(x)` conversion: truncation toward zero. -/
def truncQ (q : ℚ) : ℤ := if 0 ≤ q then ⌊q⌋ else ⌈q⌉

/-- Python `max(xs, key=f)` on a list of names: the first element whose
key is maximal (`max` replaces the running maximum only on a strictly
greater key); `none` models the `ValueError` on an empty sequence. -/
def pymax (f : String → ℤ) : List String → Option String
  | [] => none
  | x :: xs => some (xs.foldl (fun acc y => if f acc < f y then y else acc) x)

/-- The `validity_score` function: number of violated bounds over the
instruments present in the allocation.  Each loop iteration divides by
the total, so a zero total with at least one item raises
(`ZeroDivisionError`); an empty allocation returns `0` without ever
dividing. -/
def validity_score (allocation : Alloc) : Except Unit ℕ :=
  let total := allocation.total
  foldlME
    (fun diff p =>
      if total = 0 then Except.error ()
      else
        let position := targetPos p.1
        let percentage := p.2 / total * 100
        Except.ok (diff + (if (position.max : ℚ) < percentage then 1 else 0)
          + (if percentage < (position.min : ℚ) then 1 else 0)))
    0 allocation.items

/-- Radicand of `calculate_distance`: the sum over the configured
instruments of the squared deviation between target percentage and
actual percentage.  The source returns `math.sqrt` of this value and
uses it only in comparisons; the square root is strictly monotone, so
ranking by this radicand is the same ranking (see
`sqrt_order_of_radicand_order`).  Every term divides by the total, so a
zero total raises. -/
def calculate_distance_sq (allocation : Alloc) : Except Unit ℚ :=
  let total := allocation.total
  foldlME
    (fun acc k =>
      if total = 0 then Except.error ()
      else
        let diff := ((targetPos k).tgt : ℚ) - ((allocation.get k).getD 0) / total * 100
        Except.ok (acc + diff ^ 2))
    0 namesList

/-- Denominator of the proportional multiplier in `buy`:
`sum(optimum[k] for k in etfs)`. -/
def buy_subset_denominator (etfs : List String) (total : ℚ) : ℚ :=
  (etfs.map (fun k => ((targetPos k).tgt : ℚ) / 100 * total)).sum

/-- The initial free amount of `buy`: `total = sum(values) + value`
minus `fixed = sum(values[k] for k in values if k not in etfs)`. -/
def buy_free (values : Alloc) (etfs : List String) (value : ℚ) : ℚ :=
  values.total + value
    - ((values.items.filter (fun p => !(decide (p.1 ∈ etfs)))).map Prod.snd).sum

/-- The clamped ideal value of one subset member before truncation:
`val = optimum[etf] * optimum_multiplier`, then
`val = min(val, TARGET[etf].max * total / 100)`, then
`val = max(val, TARGET[etf].min * total / 100)`. -/
def buy_clamp_val (etf : String) (total optimum_multiplier : ℚ) : ℚ :=
  max (min (((targetPos etf).tgt : ℚ) / 100 * total * optimum_multiplier)
      (((targetPos etf).max : ℚ) * total / 100))
    (((targetPos etf).min : ℚ) * total / 100)

/-- One iteration of the clamp loop of `buy`: clamp the ideal value,
truncate it to an integer with `val = int(val)`, record it with
`new_values[etf] = val`, and decrement the running free amount with
`free -= val`. -/
def buy_step (total optimum_multiplier : ℚ) (st : Alloc × ℚ) (etf : String) : Alloc × ℚ :=
  let val : ℤ := truncQ (buy_clamp_val etf total optimum_multiplier)
  (st.1.set etf (val : ℚ), st.2 - (val : ℚ))

/-- The `buy` function up to the end of its clamp loop: returns the
updated allocation together with the remaining free amount.  Errors
model the `KeyError` on an unconfigured member of `etfs` and the
`ZeroDivisionError` when the subset ideal sum is zero. -/
def buy_clamp_fold (values : Alloc) (etfs : List String) (value : ℚ) :
    Except Unit (Alloc × ℚ) :=
  let total := values.total + value
  let free := buy_free values etfs value
  if !(etfs.all (fun k => (targetPos? k).isSome)) then Except.error ()
  else if buy_subset_denominator etfs total = 0 then Except.error ()
  else
    let optimum_multiplier := free / buy_subset_denominator etfs total
    Except.ok (etfs.foldl (buy_step total optimum_multiplier) (values, free))

/-- The `buy` function: clamp loop, then assignment of any nonzero
remainder to the subset member with the greatest target percentage
(Python `max` keeps the first maximal element of the tuple, which is in
sorted order).  The inner `match` models the `KeyError` that a dict
increment of an absent key would raise. -/
def buy (values : Alloc) (etfs : List String) (value : ℚ) : Except Unit Alloc := do
  let (new_values, free) ← buy_clamp_fold values etfs value
  if free = 0 then Except.ok new_values
  else
    match pymax (fun k => (targetPos k).tgt) etfs with
    | none => Except.error ()
    | some k =>
      match new_values.get k with
      | some v => Except.ok (new_values.set k (v + free))
      | none => Except.error ()

/-- Character-list lexicographic comparison (Python string `<` compares
code points left to right). -/
def charListLt : List Char → List Char → Bool
  | [], [] => false
  | [], _ :: _ => true
  | _ :: _, [] => false
  | c :: cs, d :: ds =>
    decide (c.toNat < d.toNat) || (decide (c.toNat = d.toNat) && charListLt cs ds)

/-- Python string comparison `a <= b`. -/
def strLe (a b : String) : Bool := decide (a = b) || charListLt a.toList b.toList

/-- Python `sorted` on a collection of instrument names (all distinct,
so any correct sorting algorithm produces the same list). -/
def sortNames (l : List String) : List String :=
  List.insertionSort (fun a b => strLe a b = true) l

/-- The `itertools.combinations` enumeration: all size-`n` subsequences
of `l`, in the lexicographic-by-position order that `itertools`
produces. -/
def combinations : ℕ → List String → List (List String)
  | 0, _ => [[]]
  | _ + 1, [] => []
  | n + 1, x :: xs => (combinations n xs).map (x :: ·) ++ combinations (n + 1) xs

/-- The candidate subsets examined in one round: every combination of
size `c` of the sorted instrument list, for `c` from `minT` to `maxT`
(Python `range(args.min, args.max + 1)`). -/
def round_subsets (snames : List String) (minT maxT : ℕ) : List (List String) :=
  (List.range' minT (maxT + 1 - minT)).flatMap (fun c => combinations c snames)

/-- The subsets searched under the default command-line arguments
(`--min 1`, `--max` = number of configured instruments): every nonempty
subset of the configured names, as a sorted list. -/
def all_subsets : List (List String) := round_subsets (sortNames namesList) 1 3

/-- Ranking key of a candidate, mirroring the tuple
`(validity_score, name not in CLUSTERS, comma count, distance)` passed
to `min`; the distance component carries the radicand (see
`calculate_distance_sq`). -/
structure RankKey where
  vscore : ℕ
  notCluster : Bool
  commas : ℕ
  dist2 : ℚ
deriving DecidableEq

/-- Python `False < True` for the cluster component of the key. -/
def boolNum (b : Bool) : ℕ := if b then 1 else 0

/-- The ranking key as a lexicographic product, the order Python uses
to compare the `(validity, not-cluster, commas, distance)` tuples. -/
def RankKey.toL (k : RankKey) : Lex (ℕ × Lex (ℕ × Lex (ℕ × ℚ))) :=
  toLex (k.vscore, toLex (boolNum k.notCluster, toLex (k.commas, k.dist2)))

/-- Python tuple comparison `x < y` on ranking keys: strict
lexicographic order. -/
def keyLt (x y : RankKey) : Bool := decide (x.toL < y.toL)

/-- Python `min(xs, key=...)` over a keyed candidate list: the first
element with minimal key (`min` replaces the running minimum only on a
strictly smaller key); `none` models the `ValueError` on an empty
sequence. -/
def pymin {α : Type} : List (α × RankKey) → Option (α × RankKey)
  | [] => none
  | x :: xs => some (xs.foldl (fun acc y => if keyLt y.2 acc.2 then y else acc) x)

/-- The ranking key of one candidate `(description, allocation)`; fails
when a score computation raises. -/
def candidateKey (ch : String × Alloc) : Except Unit RankKey := do
  let v ← validity_score ch.2
  let d ← calculate_distance_sq ch.2
  Except.ok ⟨v, !(decide (ch.1 ∈ CLUSTERS)), ch.1.toList.count (',' : Char), d⟩

/-- The candidate list of one round: for every subset in the search
space, the comma-joined description paired with the allocation `buy`
produces for it. -/
def round_choices (values : Alloc) (invest : ℚ) (snames : List String) (minT maxT : ℕ) :
    Except Unit (List (String × Alloc)) :=
  mapME
    (fun etfs => do
      let b ← buy values etfs invest
      Except.ok (String.intercalate ", " etfs, b))
    (round_subsets snames minT maxT)

/-- The candidates of one round paired with their ranking keys (the
evaluation of `key` on every element that Python `min` performs). -/
def round_keyed (choices : List (String × Alloc)) :
    Except Unit (List ((String × Alloc) × RankKey)) :=
  mapME (fun ch => do
    let k ← candidateKey ch
    Except.ok (ch, k)) choices

/-- One round of the rebalancer loop up to selection: build every
candidate, rank by the lexicographic key, and return the minimum.  The
final `validity_score` rerun mirrors the warning check
`if validity_score(choice) != 0` (its printed message is I/O and not
modelled; the call itself can raise and is therefore kept). -/
def doRound (values : Alloc) (invest : ℚ) (snames : List String) (minT maxT : ℕ) :
    Except Unit (String × Alloc) := do
  let choices ← round_choices values invest snames minT maxT
  let keyed ← round_keyed choices
  match pymin keyed with
  | none => Except.error ()
  | some m => do
    let _ ← validity_score m.1.2
    Except.ok m.1

/-- Label of an output row: the sentinel starting row or a round index. -/
inductive RowLabel where
  | start : RowLabel
  | iter : ℕ → RowLabel
deriving DecidableEq

/-- One output row: label, comma-joined description of the purchased
instruments (the starting row uses the sentinel), and per configured
instrument (in report order) the held value (absent rendered as a dash)
and its percentage of the total. -/
structure Row where
  label : RowLabel
  buys : String
  cells : List (Option ℚ × ℚ)
deriving DecidableEq

/-- Column order of the report:
`sorted(TARGET, key=lambda k: TARGET[k].tgt, reverse=True)`.  Python
sorting is stable, so with target percentages `80, 10, 10` this is the
`TARGET` insertion order. -/
def report_order : List String := ["world", "em imi", "world sc"]

/-- The per-instrument cells of a row; each cell divides by the total,
so a zero total raises. -/
def mkCells (a : Alloc) : Except Unit (List (Option ℚ × ℚ)) :=
  let total := a.total
  mapME
    (fun k =>
      if total = 0 then Except.error ()
      else Except.ok (a.get k, ((a.get k).getD 0) / total * 100))
    report_order

/-- The starting row built before the loop. -/
def mkStartRow (values : Alloc) : Except Unit Row := do
  let cells ← mkCells values
  Except.ok ⟨RowLabel.start, "-", cells⟩

/-- The row appended for a completed round. -/
def mkRow (i : ℕ) (buys : String) (choice : Alloc) : Except Unit Row := do
  let cells ← mkCells choice
  Except.ok ⟨RowLabel.iter i, buys, cells⟩

/-- The rebalancer loop of `main`: for each remaining round, select a
candidate, stop (keeping the rows already produced) when the selection
equals the entering allocation, otherwise append a row and continue
with the selected allocation. -/
def runLoop (invest : ℚ) (snames : List String) (minT maxT : ℕ) :
    Alloc → ℕ → ℕ → Except Unit (List Row)
  | _, _, 0 => Except.ok []
  | values, i, r + 1 => do
    let m ← doRound values invest snames minT maxT
    if values = m.2 then Except.ok []
    else do
      let row ← mkRow (i + 1) m.1 m.2
      let rest ← runLoop invest snames minT maxT m.2 (i + 1) r
      Except.ok (row :: rest)

/-- Header row of the report. -/
def headerRow : List String := ["iteration", "buy"] ++ report_order

/-- All data rows printed by `main`: the starting row followed by one
row per completed round.  `nameOrder` is the iteration order of the set
`etfs = set(TARGET.keys())`, the only run-to-run varying order in the
program; it is consumed exclusively through `sorted`. -/
def mainRows (nameOrder : List String) (start : Alloc) (invest : ℚ)
    (rounds minT maxT : ℕ) : Except Unit (List Row) := do
  let snames := sortNames nameOrder
  let srow ← mkStartRow start
  let rows ← runLoop invest snames minT maxT start 0 rounds
  Except.ok (srow :: rows)

/-- The configured bounds admit a joint solution at total `t`: there is
an assignment of values within every percentage band summing to `t`. -/
def boundsSatisfiable (t : ℚ) : Prop :=
  ∃ f : String → ℚ,
    (∀ k ∈ namesList,
      ((targetPos k).min : ℚ) * t / 100 ≤ f k ∧ f k ≤ ((targetPos k).max : ℚ) * t / 100) ∧
    f "world" + f "em imi" + f "world sc" = t

/-- The violation count stated by the specification: one unit per held
instrument above its maximum and one per held instrument below its
minimum, summed over the instruments present in the allocation. -/
def spec_violation_count (a : Alloc) : ℕ :=
  (a.items.map (fun p =>
    (if ((targetPos p.1).max : ℚ) < p.2 / a.total * 100 then 1 else 0)
      + (if p.2 / a.total * 100 < ((targetPos p.1).min : ℚ) then 1 else 0))).sum

/-- Every instrument present in the allocation has a percentage of
total within its configured bounds (instruments absent from the
allocation impose nothing). -/
def withinBounds (a : Alloc) : Prop :=
  ∀ k ∈ namesList, ∀ v, a.get k = some v →
    ((targetPos k).min : ℚ) ≤ v / a.total * 100 ∧
      v / a.total * 100 ≤ ((targetPos k).max : ℚ)

/-- Zero-total behavior A of the specification: both scoring functions
fail fast on every zero-total allocation. -/
def failsFastBehavior : Prop :=
  ∀ a : Alloc, a.total = 0 →
    validity_score a = Except.error () ∧ calculate_distance_sq a = Except.error ()

/-- Zero-total behavior B of the specification: both scoring functions
return a value on every zero-total allocation (treating percentages
as 0 rather than raising). -/
def zeroPctBehavior : Prop :=
  ∀ a : Alloc, a.total = 0 →
    (∃ n, validity_score a = Except.ok n) ∧ (∃ q, calculate_distance_sq a = Except.ok q)

/-- Sequencing helper: bind distributes over a branch. -/
lemma ite_bind {α β : Type} (c : Prop) [Decidable c] (x y : Except Unit α)
    (f : α → Except Unit β) :
    ((if c then x else y) >>= f) = if c then (x >>= f) else (y >>= f) := by
  split_ifs <;> rfl

/-- The dict total is the sum of the three optional values (an absent
instrument contributes zero). -/
lemma total_eq (a : Alloc) :
    a.total = a.world.getD 0 + a.em_imi.getD 0 + a.world_sc.getD 0 := by
  rcases a with ⟨w, e, s⟩
  cases w <;> cases e <;> cases s <;> simp [Alloc.total, Alloc.items] <;> ring

/-- A nonnegative allocation has a nonnegative total. -/
lemma total_nonneg (a : Alloc) (ha : a.Nonneg) : 0 ≤ a.total := by
  obtain ⟨h1, h2, h3⟩ := ha
  rw [total_eq]
  linarith

/-- Reading a key other than the one just written is unchanged. -/
lemma get_set_ne (a : Alloc) {j k : String} (v : ℚ) (h : k ≠ j) :
    (a.set j v).get k = a.get k := by
  unfold Alloc.set Alloc.get
  split_ifs <;> simp_all

/-- Reading the key just written returns the written value (for a
configured key). -/
lemma get_set_self (a : Alloc) {k : String} (v : ℚ) (hk : k ∈ namesList) :
    (a.set k v).get k = some v := by
  fin_cases hk <;> simp [Alloc.set, Alloc.get]

/-- Sum of the values whose item satisfies a predicate, expressed field
by field (an absent instrument contributes zero either way). -/
lemma filter_sum_eq (a : Alloc) (P : String × ℚ → Bool) :
    ((a.items.filter P).map Prod.snd).sum
      = (if P ("world", a.world.getD 0) then a.world.getD 0 else 0)
        + (if P ("em imi", a.em_imi.getD 0) then a.em_imi.getD 0 else 0)
        + (if P ("world sc", a.world_sc.getD 0) then a.world_sc.getD 0 else 0) := by
  rcases a with ⟨w, e, s⟩
  cases w <;> cases e <;> cases s <;>
    simp [Alloc.items, List.filter_cons] <;> split_ifs <;> simp <;> ring

/-- A fold that always keeps either the accumulator or the next element
ends on a member of the extended list. -/
lemma foldl_choice_mem {α : Type} (g : α → α → α) (hg : ∀ x y, g x y = x ∨ g x y = y)
    (xs : List α) : ∀ x : α, xs.foldl g x ∈ x :: xs := by
  induction xs with
  | nil => intro x; simp
  | cons y ys ih =>
    intro x
    simp only [List.foldl_cons]
    have h2 := ih (g x y)
    rcases List.mem_cons.mp h2 with h3 | h3
    · rcases hg x y with h4 | h4
      · exact List.mem_cons.mpr (Or.inl (h3.trans h4))
      · exact List.mem_cons.mpr (Or.inr (List.mem_cons.mpr (Or.inl (h3.trans h4))))
    · exact List.mem_cons.mpr (Or.inr (List.mem_cons.mpr (Or.inr h3)))

/-- The result of `pymax` is a member of the list. -/
lemma pymax_mem (f : String → ℤ) (l : List String) (m : String)
    (h : pymax f l = some m) : m ∈ l := by
  cases l with
  | nil => simp [pymax] at h
  | cons x xs =>
    simp only [pymax, Option.some.injEq] at h
    have := foldl_choice_mem (fun acc y => if f acc < f y then y else acc)
      (fun x y => by by_cases hc : f x < f y <;> simp [hc]) xs x
    rw [h] at this
    exact this

/-- Unfolding of the key comparison into the lexicographic order. -/
lemma keyLt_iff (x y : RankKey) : keyLt x y = true ↔ x.toL < y.toL := by
  simp [keyLt]

/-- Negated key comparison is reversed weak order. -/
lemma keyLt_false_iff (x y : RankKey) : keyLt x y = false ↔ y.toL ≤ x.toL := by
  simp [keyLt, not_lt]

/-- The running minimum kept by the `min` fold is never beaten by any
element it has passed over. -/
lemma pymin_foldl_min {α : Type} (xs : List (α × RankKey)) :
    ∀ (x m : α × RankKey),
      xs.foldl (fun acc y => if keyLt y.2 acc.2 then y else acc) x = m →
      ∀ z ∈ x :: xs, keyLt z.2 m.2 = false := by
  induction xs with
  | nil =>
    intro x m h z hz
    simp only [List.foldl_nil] at h
    subst h
    simp only [List.mem_singleton] at hz
    subst hz
    simp [keyLt_false_iff]
  | cons y ys ih =>
    intro x m h z hz
    simp only [List.foldl_cons] at h
    by_cases hxy : keyLt y.2 x.2
    · rw [if_pos hxy] at h
      have hy := ih y m h y (List.mem_cons_self y ys)
      rcases List.mem_cons.mp hz with rfl | hz2
      · rw [keyLt_false_iff] at hy ⊢
        rw [keyLt_iff] at hxy
        exact le_of_lt (lt_of_le_of_lt hy hxy)
      · exact ih y m h z hz2
    · rw [if_neg hxy] at h
      rcases List.mem_cons.mp hz with rfl | hz2
      · exact ih _ m h _ (List.mem_cons_self _ _)
      · rcases List.mem_cons.mp hz2 with rfl | hz3
        · have hx := ih x m h x (List.mem_cons_self x ys)
          rw [keyLt_false_iff] at hx ⊢
          rw [Bool.not_eq_true, keyLt_false_iff] at hxy
          exact le_trans hx hxy
        · exact ih x m h z (List.mem_cons.mpr (Or.inr hz3))

/-- Correctness of `pymin`: the selected element belongs to the list
and no element compares strictly below it. -/
lemma pymin_spec {α : Type} (l : List (α × RankKey)) (m : α × RankKey)
    (h : pymin l = some m) :
    m ∈ l ∧ ∀ z ∈ l, keyLt z.2 m.2 = false := by
  cases l with
  | nil => simp [pymin] at h
  | cons x xs =>
    simp only [pymin, Option.some.injEq] at h
    constructor
    · have := foldl_choice_mem (fun acc y => if keyLt y.2 acc.2 then y else acc)
        (fun a b => by by_cases hc : keyLt b.2 a.2 <;> simp [hc]) xs x
      rw [h] at this
      exact this
    · exact pymin_foldl_min xs x m h

/-- Successful effectful map relates input and output pointwise. -/
lemma mapME_forall2 {α β : Type} (f : α → Except Unit β) (l : List α) (ys : List β)
    (h : mapME f l = Except.ok ys) : List.Forall₂ (fun x y => f x = Except.ok y) l ys := by
  induction l generalizing ys with
  | nil =>
    simp only [mapME, Except.ok.injEq] at h
    subst h
    exact List.Forall₂.nil
  | cons x xs ih =>
    simp only [mapME] at h
    cases hfx : f x with
    | error e => rw [hfx, err_bind] at h; exact absurd h (by simp)
    | ok y =>
      rw [hfx, ok_bind] at h
      cases hrest : mapME f xs with
      | error e => rw [hrest, err_bind] at h; exact absurd h (by simp)
      | ok ys2 =>
        rw [hrest, ok_bind] at h
        cases h
        exact List.Forall₂.cons hfx (ih ys2 hrest)

/-- A pointwise relation sends a member of the left list to a related
member of the right list. -/
lemma forall2_mem_left {α β : Type} {R : α → β → Prop} {l : List α} {ys : List β}
    (h : List.Forall₂ R l ys) {x : α} (hx : x ∈ l) : ∃ y ∈ ys, R x y := by
  induction h with
  | nil => cases hx
  | cons hr _ ih =>
    rcases List.mem_cons.mp hx with rfl | hx2
    · exact ⟨_, List.mem_cons_self _ _, hr⟩
    · obtain ⟨y, hy, hry⟩ := ih hx2
      exact ⟨y, List.mem_cons.mpr (Or.inr hy), hry⟩

/-- A pointwise relation sends a member of the right list to a related
member of the left list. -/
lemma forall2_mem_right {α β : Type} {R : α → β → Prop} {l : List α} {ys : List β}
    (h : List.Forall₂ R l ys) {y : β} (hy : y ∈ ys) : ∃ x ∈ l, R x y := by
  induction h with
  | nil => cases hy
  | cons hr _ ih =>
    rcases List.mem_cons.mp hy with rfl | hy2
    · exact ⟨_, List.mem_cons_self _ _, hr⟩
    · obtain ⟨x, hx, hrx⟩ := ih hy2
      exact ⟨x, List.mem_cons.mpr (Or.inr hx), hrx⟩

/-- A successful distance radicand is a sum of squares, hence
nonnegative. -/
lemma calculate_distance_sq_nonneg (a : Alloc) (d : ℚ)
    (h : calculate_distance_sq a = Except.ok d) : 0 ≤ d := by
  by_cases ht : a.total = 0
  · simp [calculate_distance_sq, foldlME, namesList, ht, err_bind] at h
  · simp only [calculate_distance_sq, foldlME, namesList, if_neg ht, ok_bind,
      Except.ok.injEq] at h
    subst h
    positivity

/-- The square root is monotone, so comparing two distance values in
the source equals comparing the embedded radicands. -/
lemma sqrt_order_of_radicand_order (x y : ℚ) (h : x ≤ y) :
    Real.sqrt (x : ℝ) ≤ Real.sqrt (y : ℝ) := by
  exact Real.sqrt_le_sqrt (by exact_mod_cast h)

/-- The default search space, enumerated. -/
lemma all_subsets_eq : all_subsets =
    [["em imi"], ["world"], ["world sc"], ["em imi", "world"], ["em imi", "world sc"],
      ["world", "world sc"], ["em imi", "world", "world sc"]] := by decide

set_option maxHeartbeats 4000000 in
/-- Shared workhorse: on a nonnegative allocation, a configured subset
and a positive amount, `buy` succeeds and its result has total
`sum(values) + value` exactly. -/
lemma buy_ok_spec (a : Alloc) (S : List String) (amt : ℚ) (hS : S ∈ all_subsets)
    (ha : a.Nonneg) (hamt : 0 < amt) :
    ∃ b, buy a S amt = Except.ok b ∧ b.total = a.total + amt := by
  obtain ⟨hw, he, hs2⟩ := ha
  rw [all_subsets_eq] at hS
  fin_cases hS <;>
    (simp [buy, buy_clamp_fold, buy_free, buy_step, buy_clamp_val, buy_subset_denominator,
      pymax, total_eq, filter_sum_eq, Alloc.get, Alloc.set, targetPos, targetPos?, TARGET,
      List.lookup, ite_bind, ok_bind, err_bind, pure_eq_ok];
     split_ifs with h1 h2 <;>
       first
         | (exfalso; ring_nf at h1; linarith)
         | (refine ⟨_, rfl, ?_⟩; simp; all_goals linarith))

/-- Inversion of a successful clamp stage: the subset passed the
configuration check, the multiplier denominator was nonzero, and the
result is the fold of the clamp loop. -/
lemma buy_clamp_fold_ok_inv (a : Alloc) (S : List String) (amt : ℚ) (p : Alloc × ℚ)
    (h : buy_clamp_fold a S amt = Except.ok p) :
    buy_subset_denominator S (a.total + amt) ≠ 0 ∧
      p = S.foldl
        (buy_step (a.total + amt)
          (buy_free a S amt / buy_subset_denominator S (a.total + amt)))
        (a, buy_free a S amt) := by
  simp only [buy_clamp_fold] at h
  split_ifs at h with h1 h2
  exact ⟨h2, ((Except.ok.injEq _ _).mp h).symm⟩

/-- The clamp loop never touches a key outside the subset. -/
lemma foldl_buy_step_get_not_mem (t mu : ℚ) :
    ∀ (S : List String) (st : Alloc × ℚ) (k : String), k ∉ S →
      ((S.foldl (buy_step t mu) st).1).get k = st.1.get k := by
  intro S
  induction S with
  | nil => intro st k _; rfl
  | cons x xs ih =>
    intro st k hk
    simp only [List.foldl_cons]
    have hkx : k ≠ x := fun he => hk (he ▸ List.mem_cons_self x xs)
    rw [ih _ k (fun hm => hk (List.mem_cons.mpr (Or.inr hm)))]
    exact get_set_ne st.1 _ hkx

/-- The clamp loop records exactly the truncated clamped value for
every member of a duplicate-free configured subset. -/
lemma foldl_buy_step_get_mem (t mu : ℚ) :
    ∀ (S : List String) (st : Alloc × ℚ) (k : String), k ∈ S → S.Nodup →
      k ∈ namesList →
      ((S.foldl (buy_step t mu) st).1).get k
        = some ((truncQ (buy_clamp_val k t mu) : ℤ) : ℚ) := by
  intro S
  induction S with
  | nil => intro st k hk; cases hk
  | cons x xs ih =>
    intro st k hk hnd hkn
    simp only [List.foldl_cons]
    rcases List.mem_cons.mp hk with rfl | hk2
    · have hknx : k ∉ xs := (List.nodup_cons.mp hnd).1
      rw [foldl_buy_step_get_not_mem t mu xs _ k hknx]
      exact get_set_self st.1 _ hkn
    · exact ih _ k hk2 (List.nodup_cons.mp hnd).2 hkn

/-- Truncation toward zero of a nonnegative rational lands within one
unit below it. -/
lemma truncQ_bounds (q : ℚ) (h0 : 0 ≤ q) :
    q - 1 < ((truncQ q : ℤ) : ℚ) ∧ ((truncQ q : ℤ) : ℚ) ≤ q := by
  rw [truncQ, if_pos h0]
  exact ⟨Int.sub_one_lt_floor q, Int.floor_le q⟩

/-- Concrete bounds of the first configured instrument. -/
lemma targetPos_world : targetPos "world" = ⟨72, 80, 100⟩ := by decide

/-- Concrete bounds of the second configured instrument. -/
lemma targetPos_em_imi : targetPos "em imi" = ⟨8, 10, 12⟩ := by decide

/-- Concrete bounds of the third configured instrument. -/
lemma targetPos_world_sc : targetPos "world sc" = ⟨8, 10, 12⟩ := by decide

/-- For a configured instrument and positive total, the clamped ideal
value lies between the two percentage bounds (whatever the multiplier
was). -/
lemma buy_clamp_val_bounds (etf : String) (t mu : ℚ) (hetf : etf ∈ namesList)
    (ht : 0 < t) :
    ((targetPos etf).min : ℚ) * t / 100 ≤ buy_clamp_val etf t mu ∧
      buy_clamp_val etf t mu ≤ ((targetPos etf).max : ℚ) * t / 100 ∧
      0 ≤ ((targetPos etf).min : ℚ) * t / 100 := by
  fin_cases hetf <;>
    (simp only [buy_clamp_val, targetPos_world, targetPos_em_imi, targetPos_world_sc];
     refine ⟨le_max_right _ _, max_le (min_le_right _ _) ?_, ?_⟩ <;>
       (push_cast; first | linarith | positivity))

/-- Inversion of a successful `buy`: the clamp stage succeeded, and the
result is either the clamp result directly (no remainder) or the clamp
result with the remainder added to the `max`-selected member. -/
lemma buy_ok_inv (a : Alloc) (S : List String) (amt : ℚ) (b : Alloc)
    (h : buy a S amt = Except.ok b) :
    ∃ nv fr, buy_clamp_fold a S amt = Except.ok (nv, fr) ∧
      ((fr = 0 ∧ b = nv) ∨
        (fr ≠ 0 ∧ ∃ r v, pymax (fun k => (targetPos k).tgt) S = some r ∧
          nv.get r = some v ∧ b = nv.set r (v + fr))) := by
  simp only [buy] at h
  cases hcf : buy_clamp_fold a S amt with
  | error e =>
    rw [hcf, err_bind] at h
    exact absurd h (by simp)
  | ok p =>
    obtain ⟨nv, fr⟩ := p
    rw [hcf, ok_bind] at h
    dsimp only at h
    refine ⟨nv, fr, rfl, ?_⟩
    by_cases hfr : fr = 0
    · rw [if_pos hfr] at h
      exact Or.inl ⟨hfr, ((Except.ok.injEq _ _).mp h).symm⟩
    · rw [if_neg hfr] at h
      cases hpm : pymax (fun k => (targetPos k).tgt) S with
      | none => rw [hpm] at h; exact absurd h (by simp)
      | some r =>
        rw [hpm] at h
        dsimp only at h
        cases hget : nv.get r with
        | none => rw [hget] at h; exact absurd h (by simp)
        | some v =>
          rw [hget] at h
          exact Or.inr ⟨hfr, r, v, rfl, hget, ((Except.ok.injEq _ _).mp h).symm⟩

/-- Every default-search subset is duplicate-free and configured. -/
lemma all_subsets_nodup_sub (S : List String) (hS : S ∈ all_subsets) :
    S.Nodup ∧ ∀ j ∈ S, j ∈ namesList := by
  rw [all_subsets_eq] at hS
  fin_cases hS <;> exact ⟨by decide, by decide⟩

/-- The denominator of the proportional multiplier is positive for a
configured nonempty subset and positive total. -/
lemma buy_denominator_pos (S : List String) (t : ℚ) (hS : S ∈ all_subsets)
    (ht : 0 < t) : 0 < buy_subset_denominator S t := by
  rw [all_subsets_eq] at hS
  fin_cases hS <;>
    (simp [buy_subset_denominator, targetPos_world, targetPos_em_imi, targetPos_world_sc];
     push_cast;
     linarith)

/-- Claim C1: mass conservation of the proportional buy.  For every
nonnegative allocation, every subset of the default search space, and
every positive amount, `buy` succeeds and the total of the result is
exactly the old total plus the amount. -/
theorem buy_mass_conservation (a : Alloc) (S : List String) (amt : ℚ)
    (hS : S ∈ all_subsets) (ha : a.Nonneg) (hamt : 0 < amt) :
    ∃ b, buy a S amt = Except.ok b ∧ b.total = a.total + amt :=
  buy_ok_spec a S amt hS ha hamt

/-- Witness for C1 at a concrete input. -/
theorem buy_mass_conservation_witness :
    ∃ b, buy ⟨some 800, some 100, some 100⟩ ["em imi", "world"] 1000 = Except.ok b ∧
      b.total = (Alloc.mk (some 800) (some 100) (some 100)).total + 1000 :=
  buy_mass_conservation ⟨some 800, some 100, some 100⟩ ["em imi", "world"] 1000
    (by decide) (by norm_num [Alloc.Nonneg]) (by norm_num)

/-- Claim C2: frame property of the proportional buy.  An instrument
present in the allocation but outside the purchased subset keeps its
exact previous value. -/
theorem buy_frame (a : Alloc) (S : List String) (amt : ℚ) (k : String) (b : Alloc)
    (hS : S ∈ all_subsets) (hk : k ∉ S) (hpresent : (a.get k).isSome)
    (h : buy a S amt = Except.ok b) : b.get k = a.get k := by
  obtain ⟨nv, fr, hcf, hcase⟩ := buy_ok_inv a S amt b h
  obtain ⟨hden, hp⟩ := buy_clamp_fold_ok_inv a S amt (nv, fr) hcf
  have hnv : nv = (S.foldl
      (buy_step (a.total + amt)
        (buy_free a S amt / buy_subset_denominator S (a.total + amt)))
      (a, buy_free a S amt)).1 := congrArg Prod.fst hp
  have hget : nv.get k = a.get k := by
    rw [hnv, foldl_buy_step_get_not_mem _ _ S _ k hk]
  rcases hcase with ⟨_, rfl⟩ | ⟨hfr, r, v, hpm, hgr, rfl⟩
  · exact hget
  · have hrS : r ∈ S := pymax_mem _ _ _ hpm
    have hkr : k ≠ r := fun he => hk (he ▸ hrS)
    rw [get_set_ne nv _ hkr, hget]

set_option maxHeartbeats 4000000 in
/-- Concrete run of `buy` in which the minimum clamp and the remainder
step leave the purchased instrument far below its minimum bound. -/
lemma buy_eval_min_clamp :
    buy ⟨none, some 500, some 500⟩ ["world"] 1 = Except.ok ⟨some 1, some 500, some 500⟩ := by
  simp [buy, buy_clamp_fold, buy_free, buy_step, buy_clamp_val, buy_subset_denominator,
    pymax, truncQ, Alloc.items, Alloc.total, Alloc.get, Alloc.set, targetPos, targetPos?,
    TARGET, List.lookup, min_def, max_def, ok_bind, err_bind, pure_eq_ok]
  norm_num [ok_bind, err_bind, pure_eq_ok]

set_option maxHeartbeats 4000000 in
/-- Concrete run of the clamp stage with a one-unit rounding
remainder. -/
lemma buy_clamp_fold_eval_pair :
    buy_clamp_fold ⟨some 800, some 100, some 100⟩ ["em imi", "world"] 1000
      = Except.ok (⟨some 1688, some 211, some 100⟩, 1) := by
  simp [buy_clamp_fold, buy_free, buy_step, buy_clamp_val, buy_subset_denominator, truncQ,
    Alloc.items, Alloc.total, Alloc.get, Alloc.set, targetPos, targetPos?, TARGET,
    List.lookup, min_def, max_def, ok_bind, err_bind, pure_eq_ok]
  norm_num

set_option maxHeartbeats 4000000 in
/-- Concrete run of `buy` whose remainder goes to the subset member
with the greater target percentage. -/
lemma buy_eval_pair :
    buy ⟨some 800, some 100, some 100⟩ ["em imi", "world"] 1000
      = Except.ok ⟨some 1689, some 211, some 100⟩ := by
  simp [buy, buy_clamp_fold_eval_pair, pymax, Alloc.get, Alloc.set, targetPos, targetPos?,
    TARGET, List.lookup, ok_bind, err_bind, pure_eq_ok]
  norm_num

/-- For every default-search subset, `max(etfs, key=tgt)` returns the
member with the greatest target percentage, and on target ties the
first (lexicographically smallest, since the tuple is sorted) member. -/
lemma pymax_spec_all (S : List String) (hS : S ∈ all_subsets) :
    ∃ r, pymax (fun k => (targetPos k).tgt) S = some r ∧ r ∈ S ∧
      (∀ j ∈ S, (targetPos j).tgt ≤ (targetPos r).tgt) ∧
      (∀ j ∈ S, (targetPos j).tgt = (targetPos r).tgt → strLe r j = true) := by
  rw [all_subsets_eq] at hS
  fin_cases hS
  · exact ⟨"em imi", by decide, by decide, by decide, by decide⟩
  · exact ⟨"world", by decide, by decide, by decide, by decide⟩
  · exact ⟨"world sc", by decide, by decide, by decide, by decide⟩
  · exact ⟨"world", by decide, by decide, by decide, by decide⟩
  · exact ⟨"em imi", by decide, by decide, by decide, by decide⟩
  · exact ⟨"world", by decide, by decide, by decide, by decide⟩
  · exact ⟨"world", by decide, by decide, by decide, by decide⟩

/-- Claim C3, counterexample: at allocation `{em imi: 500, world sc: 500}`,
subset `{world}` and amount `1`, the bounds are jointly satisfiable for
the resulting total `1001`, yet the purchased instrument `world` ends at
value `1`, far below its minimum percentage bound (the minimum clamp
raises the pre-truncation value to `720.72`, truncation books `720`,
and the then negative remainder `-719` is added back to `world`). -/
theorem buy_clamp_counterexample :
    boundsSatisfiable 1001 ∧
    (Alloc.mk none (some 500) (some 500)).Nonneg ∧
    (0 : ℚ) < 1 ∧
    ["world"] ∈ all_subsets ∧
    ("world" : String) ∈ ["world"] ∧
    buy ⟨none, some 500, some 500⟩ ["world"] 1 = Except.ok ⟨some 1, some 500, some 500⟩ ∧
    (Alloc.mk none (some 500) (some 500)).total + 1 = 1001 ∧
    (Alloc.mk (some 1) (some 500) (some 500)).get "world" = some 1 ∧
    ¬ (((targetPos "world").min : ℚ) ≤ 1 / 1001 * 100) := by
  refine ⟨⟨fun k => if k = "world" then 76076 / 100 else 12012 / 100, ?_, by simp <;> norm_num⟩,
    by norm_num [Alloc.Nonneg], by norm_num, by decide, by decide,
    buy_eval_min_clamp, by simp [total_eq]; norm_num, by decide,
    by rw [targetPos_world]; norm_num⟩
  intro k hk
  fin_cases hk <;>
    simp [targetPos_world, targetPos_em_imi, targetPos_world_sc] <;> norm_num

/-- Claim C3, amended: every member of the purchased subset other than
the remainder recipient ends within its percentage bounds up to the one
currency unit lost to truncation (value in the half-open interval from
`min_pct*total/100 - 1` exclusive to `max_pct*total/100` inclusive);
the remainder recipient itself can leave the bounds entirely, as the
counterexample shows. -/
theorem buy_clamp_amended (a : Alloc) (S : List String) (amt : ℚ) (b : Alloc) (k : String)
    (hS : S ∈ all_subsets) (ha : a.Nonneg) (hamt : 0 < amt) (hk : k ∈ S)
    (hbuy : buy a S amt = Except.ok b)
    (hnr : pymax (fun j => (targetPos j).tgt) S ≠ some k) :
    ∃ v : ℤ, b.get k = some (v : ℚ) ∧
      ((targetPos k).min : ℚ) * (a.total + amt) / 100 - 1 < (v : ℚ) ∧
      (v : ℚ) ≤ ((targetPos k).max : ℚ) * (a.total + amt) / 100 := by
  obtain ⟨hnd, hsub⟩ := all_subsets_nodup_sub S hS
  have h0 := total_nonneg a ha
  have ht : 0 < a.total + amt := by linarith
  obtain ⟨nv, fr, hcf, hcase⟩ := buy_ok_inv a S amt b hbuy
  obtain ⟨hden, hp⟩ := buy_clamp_fold_ok_inv a S amt (nv, fr) hcf
  have hnv : nv = (S.foldl
      (buy_step (a.total + amt)
        (buy_free a S amt / buy_subset_denominator S (a.total + amt)))
      (a, buy_free a S amt)).1 := congrArg Prod.fst hp
  have hget : nv.get k = some ((truncQ (buy_clamp_val k (a.total + amt)
      (buy_free a S amt / buy_subset_denominator S (a.total + amt))) : ℤ) : ℚ) := by
    rw [hnv]
    exact foldl_buy_step_get_mem _ _ S _ k hk hnd (hsub k hk)
  have hbk : b.get k = nv.get k := by
    rcases hcase with ⟨_, rfl⟩ | ⟨hfr, r, v, hpm, hgr, rfl⟩
    · rfl
    · have hkr : k ≠ r := fun he => hnr (by rw [he]; exact hpm)
      exact get_set_ne nv _ hkr
  obtain ⟨hlow, hhigh, hmin0⟩ := buy_clamp_val_bounds k (a.total + amt)
    (buy_free a S amt / buy_subset_denominator S (a.total + amt)) (hsub k hk) ht
  have h0c : 0 ≤ buy_clamp_val k (a.total + amt)
      (buy_free a S amt / buy_subset_denominator S (a.total + amt)) :=
    le_trans hmin0 hlow
  obtain ⟨htr1, htr2⟩ := truncQ_bounds _ h0c
  exact ⟨_, by rw [hbk, hget], by linarith, by linarith⟩

/-- Witness for the amended C3 at a concrete input (the non-recipient
member `em imi` of the pair purchase). -/
theorem buy_clamp_amended_witness :
    ∃ v : ℤ, (Alloc.mk (some 1689) (some 211) (some 100)).get "em imi" = some (v : ℚ) ∧
      ((targetPos "em imi").min : ℚ)
          * ((Alloc.mk (some 800) (some 100) (some 100)).total + 1000) / 100 - 1 < (v : ℚ) ∧
      (v : ℚ) ≤ ((targetPos "em imi").max : ℚ)
          * ((Alloc.mk (some 800) (some 100) (some 100)).total + 1000) / 100 :=
  buy_clamp_amended ⟨some 800, some 100, some 100⟩ ["em imi", "world"] 1000
    ⟨some 1689, some 211, some 100⟩ "em imi" (by decide) (by norm_num [Alloc.Nonneg])
    (by norm_num) (by decide) buy_eval_pair (by decide)

/-- Claim C6: when the clamp loop leaves a nonzero remainder, `buy`
adds the entire remainder to exactly one member of the subset, the one
with the greatest target percentage, lexicographically smallest on
ties; every other instrument keeps its clamp-stage value. -/
theorem buy_remainder_rule (a : Alloc) (S : List String) (amt : ℚ) (nv : Alloc) (fr : ℚ)
    (hS : S ∈ all_subsets)
    (hcf : buy_clamp_fold a S amt = Except.ok (nv, fr)) (hfr : fr ≠ 0) :
    ∃ r v, pymax (fun k => (targetPos k).tgt) S = some r ∧ r ∈ S ∧
      (∀ j ∈ S, (targetPos j).tgt ≤ (targetPos r).tgt) ∧
      (∀ j ∈ S, (targetPos j).tgt = (targetPos r).tgt → strLe r j = true) ∧
      nv.get r = some v ∧
      buy a S amt = Except.ok (nv.set r (v + fr)) ∧
      (nv.set r (v + fr)).get r = some (v + fr) ∧
      (∀ j, j ≠ r → (nv.set r (v + fr)).get j = nv.get j) := by
  obtain ⟨r, hpm, hrS, hmax, hlex⟩ := pymax_spec_all S hS
  obtain ⟨hnd, hsub⟩ := all_subsets_nodup_sub S hS
  obtain ⟨hden, hp⟩ := buy_clamp_fold_ok_inv a S amt (nv, fr) hcf
  have hnv : nv = (S.foldl
      (buy_step (a.total + amt)
        (buy_free a S amt / buy_subset_denominator S (a.total + amt)))
      (a, buy_free a S amt)).1 := congrArg Prod.fst hp
  have hget : nv.get r = some ((truncQ (buy_clamp_val r (a.total + amt)
      (buy_free a S amt / buy_subset_denominator S (a.total + amt))) : ℤ) : ℚ) := by
    rw [hnv]
    exact foldl_buy_step_get_mem _ _ S _ r hrS hnd (hsub r hrS)
  refine ⟨r, _, hpm, hrS, hmax, hlex, hget, ?_, ?_, ?_⟩
  · simp only [buy, hcf, ok_bind]
    rw [if_neg hfr, hpm]
    dsimp only
    rw [hget]
  · exact get_set_self nv _ (hsub r hrS)
  · intro j hj
    exact get_set_ne nv _ hj

/-- Witness for C6 at a concrete input with remainder `1`. -/
theorem buy_remainder_rule_witness :
    ∃ r v, pymax (fun k => (targetPos k).tgt) ["em imi", "world"] = some r ∧
      r ∈ ["em imi", "world"] ∧
      (∀ j ∈ ["em imi", "world"], (targetPos j).tgt ≤ (targetPos r).tgt) ∧
      (∀ j ∈ ["em imi", "world"], (targetPos j).tgt = (targetPos r).tgt → strLe r j = true) ∧
      (Alloc.mk (some 1688) (some 211) (some 100)).get r = some v ∧
      buy ⟨some 800, some 100, some 100⟩ ["em imi", "world"] 1000
        = Except.ok ((Alloc.mk (some 1688) (some 211) (some 100)).set r (v + 1)) ∧
      ((Alloc.mk (some 1688) (some 211) (some 100)).set r (v + 1)).get r = some (v + 1) ∧
      (∀ j, j ≠ r →
        ((Alloc.mk (some 1688) (some 211) (some 100)).set r (v + 1)).get j
          = (Alloc.mk (some 1688) (some 211) (some 100)).get j) :=
  buy_remainder_rule ⟨some 800, some 100, some 100⟩ ["em imi", "world"] 1000
    ⟨some 1688, some 211, some 100⟩ 1 (by decide) buy_clamp_fold_eval_pair (by norm_num)

/-- Claim C10: under the configured target policy, a nonnegative
allocation, a default-search subset and a positive amount make both
divisions of `buy` safe: the new total is positive and the subset ideal
sum (the multiplier denominator) is positive, so `buy` succeeds. -/
theorem buy_division_safe (a : Alloc) (S : List String) (amt : ℚ)
    (hS : S ∈ all_subsets) (ha : a.Nonneg) (hamt : 0 < amt) :
    amt ≤ a.total + amt ∧ 0 < a.total + amt ∧
      0 < buy_subset_denominator S (a.total + amt) ∧
      ∃ b, buy a S amt = Except.ok b := by
  have h0 := total_nonneg a ha
  have ht : 0 < a.total + amt := by linarith
  exact ⟨by linarith, ht, buy_denominator_pos S _ hS ht,
    (buy_ok_spec a S amt hS ha hamt).imp (fun b hb => hb.1)⟩

/-- Witness for C10 at a concrete input. -/
theorem buy_division_safe_witness :
    1000 ≤ (Alloc.mk (some 800) (some 100) (some 100)).total + 1000 ∧
      0 < (Alloc.mk (some 800) (some 100) (some 100)).total + 1000 ∧
      0 < buy_subset_denominator ["em imi", "world"]
        ((Alloc.mk (some 800) (some 100) (some 100)).total + 1000) ∧
      ∃ b, buy ⟨some 800, some 100, some 100⟩ ["em imi", "world"] 1000 = Except.ok b :=
  buy_division_safe ⟨some 800, some 100, some 100⟩ ["em imi", "world"] 1000
    (by decide) (by norm_num [Alloc.Nonneg]) (by norm_num)

/-- Witness for C2 at a concrete input: the untouched instrument
`em imi` keeps its value through the single-member purchase. -/
theorem buy_frame_witness :
    (Alloc.mk (some 1) (some 500) (some 500)).get "em imi"
      = (Alloc.mk none (some 500) (some 500)).get "em imi" :=
  buy_frame ⟨none, some 500, some 500⟩ ["world"] 1 "em imi" ⟨some 1, some 500, some 500⟩
    (by decide) (by decide) (by decide) buy_eval_min_clamp

/-- One instrument contributes no violation exactly when its percentage
is within its bounds. -/
lemma indicator_zero_iff (minb maxb pct : ℚ) :
    ((if maxb < pct then 1 else 0) + (if pct < minb then 1 else 0) = (0 : ℕ))
      ↔ (minb ≤ pct ∧ pct ≤ maxb) := by
  split_ifs with h1 h2 <;> simp <;>
    first
      | (intro h3; linarith)
      | (constructor <;> linarith)

set_option maxHeartbeats 2000000 in
/-- Claim C4: for a positive total, `validity_score` returns exactly
the specified violation count (one per held instrument above its max,
one per held instrument below its min; absent instruments contribute
nothing), and the count is zero exactly when every held instrument is
within its bounds. -/
theorem validity_score_semantics (a : Alloc) (h : 0 < a.total) :
    validity_score a = Except.ok (spec_violation_count a) ∧
      (spec_violation_count a = 0 ↔ withinBounds a) := by
  have hne : a.total ≠ 0 := ne_of_gt h
  rcases a with ⟨w, e, s⟩
  constructor
  · cases w <;> cases e <;> cases s <;>
      simp [validity_score, foldlME, spec_violation_count, Alloc.items, hne, ok_bind] <;>
      ring
  · cases w <;> cases e <;> cases s <;>
      simp [spec_violation_count, withinBounds, namesList, Alloc.get, Alloc.items,
        Nat.add_eq_zero, indicator_zero_iff, and_assoc] <;>
      tauto

/-- Witness for C4 at a concrete in-bounds allocation. -/
theorem validity_score_semantics_witness :
    validity_score ⟨some 800, some 100, some 100⟩
        = Except.ok (spec_violation_count ⟨some 800, some 100, some 100⟩) ∧
      (spec_violation_count ⟨some 800, some 100, some 100⟩ = 0
        ↔ withinBounds ⟨some 800, some 100, some 100⟩) :=
  validity_score_semantics ⟨some 800, some 100, some 100⟩
    (by rw [total_eq]; norm_num)

/-- Claim C8, counterexample: the code does not follow one uniform
zero-total behavior.  The empty allocation has total 0, yet
`validity_score` returns `0` (its loop body never runs) while
`calculate_distance` raises; and `validity_score` itself raises on the
zero-total allocation that holds one instrument at value 0.  This
refutes both admissible behaviors of the claim at explicit inputs. -/
theorem zero_total_mixed : ¬ (failsFastBehavior ∨ zeroPctBehavior) := by
  rintro (hff | hzp)
  · have h1 := hff ⟨none, none, none⟩ (by rw [total_eq]; norm_num)
    have : validity_score ⟨none, none, none⟩ = Except.ok 0 := by
      simp [validity_score, foldlME, Alloc.items]
    rw [this] at h1
    exact absurd h1.1 (by simp)
  · have h2 := hzp ⟨some 0, none, none⟩ (by rw [total_eq]; norm_num)
    have : validity_score ⟨some 0, none, none⟩ = Except.error () := by
      simp [validity_score, foldlME, Alloc.items, Alloc.total, err_bind]
    rw [this] at h2
    obtain ⟨n, hn⟩ := h2.1
    exact absurd hn (by simp)

/-- Claim C8, amended: the two scoring operations mix the behaviors in
a value-dependent way: `validity_score` returns `0` for the empty
allocation without ever dividing, raises exactly when the total is zero
and at least one instrument is present, while `calculate_distance`
always raises on a zero total. -/
theorem zero_total_amended :
    validity_score ⟨none, none, none⟩ = Except.ok 0 ∧
      (∀ a : Alloc, a.total = 0 → a.items ≠ [] → validity_score a = Except.error ()) ∧
      (∀ a : Alloc, a.total = 0 → calculate_distance_sq a = Except.error ()) := by
  refine ⟨by simp [validity_score, foldlME, Alloc.items], ?_, ?_⟩
  · intro a h0 hne
    cases hi : a.items with
    | nil => exact absurd hi hne
    | cons p ps =>
      simp [validity_score, foldlME, hi, h0, err_bind]
  · intro a h0
    simp [calculate_distance_sq, foldlME, namesList, h0, err_bind]

/-- Witness for the amended C8 at concrete inputs. -/
theorem zero_total_amended_witness :
    validity_score ⟨some 0, none, none⟩ = Except.error () ∧
      calculate_distance_sq ⟨none, none, none⟩ = Except.error () :=
  ⟨zero_total_amended.2.1 ⟨some 0, none, none⟩ (by rw [total_eq]; norm_num)
      (by simp [Alloc.items]),
    zero_total_amended.2.2 ⟨none, none, none⟩ (by rw [total_eq]; norm_num)⟩

/-- The character comparison is irreflexive. -/
lemma charListLt_irrefl : ∀ as, charListLt as as = false := by
  intro as
  induction as with
  | nil => rfl
  | cons c cs ih => simp [charListLt, ih]

/-- The character comparison is transitive. -/
lemma charListLt_trans : ∀ as bs csx, charListLt as bs = true → charListLt bs csx = true →
    charListLt as csx = true := by
  intro as
  induction as with
  | nil =>
    intro bs csx h1 h2
    cases bs with
    | nil => simp [charListLt] at h1
    | cons d ds =>
      cases csx with
      | nil => simp [charListLt] at h2
      | cons e es => simp [charListLt]
  | cons c cs ih =>
    intro bs csx h1 h2
    cases bs with
    | nil => simp [charListLt] at h1
    | cons d ds =>
      cases csx with
      | nil => simp [charListLt] at h2
      | cons e es =>
        simp only [charListLt, Bool.or_eq_true, Bool.and_eq_true, decide_eq_true_eq] at h1 h2 ⊢
        rcases h1 with h1 | ⟨e1, h1⟩ <;> rcases h2 with h2 | ⟨e2, h2⟩
        · exact Or.inl (by omega)
        · exact Or.inl (by omega)
        · exact Or.inl (by omega)
        · exact Or.inr ⟨by omega, ih ds es h1 h2⟩

/-- The character comparison is asymmetric. -/
lemma charListLt_asymm : ∀ as bs, charListLt as bs = true → charListLt bs as = true → False := by
  intro as bs h1 h2
  have := charListLt_trans as bs as h1 h2
  rw [charListLt_irrefl] at this
  cases this

/-- The character comparison is trichotomous. -/
lemma charListLt_total : ∀ as bs, charListLt as bs = true ∨ as = bs ∨ charListLt bs as = true := by
  intro as
  induction as with
  | nil =>
    intro bs
    cases bs with
    | nil => exact Or.inr (Or.inl rfl)
    | cons d ds => exact Or.inl rfl
  | cons c cs ih =>
    intro bs
    cases bs with
    | nil => exact Or.inr (Or.inr rfl)
    | cons d ds =>
      rcases Nat.lt_trichotomy c.toNat d.toNat with hlt | heq | hgt
      · exact Or.inl (by
          simp only [charListLt, Bool.or_eq_true, Bool.and_eq_true, decide_eq_true_eq]
          exact Or.inl hlt)
      · have hcd : c = d := Char.ext (UInt32.ext heq)
        subst hcd
        rcases ih ds with h | h | h
        · exact Or.inl (by simp [charListLt, h])
        · exact Or.inr (Or.inl (by rw [h]))
        · exact Or.inr (Or.inr (by simp [charListLt, h]))
      · exact Or.inr (Or.inr (by
          simp only [charListLt, Bool.or_eq_true, Bool.and_eq_true, decide_eq_true_eq]
          exact Or.inl hgt))

/-- Equal character lists mean equal strings. -/
lemma string_eq_of_toList_eq {a b : String} (h : a.toList = b.toList) : a = b := by
  cases a
  cases b
  simp only [String.toList] at h
  rw [h]

/-- The string comparison is total. -/
lemma strLe_total : ∀ a b : String, strLe a b = true ∨ strLe b a = true := by
  intro a b
  rcases charListLt_total a.toList b.toList with h | h | h
  · exact Or.inl (by
      simp only [strLe, Bool.or_eq_true, decide_eq_true_eq]
      exact Or.inr h)
  · exact Or.inl (by
      simp only [strLe, Bool.or_eq_true, decide_eq_true_eq]
      exact Or.inl (string_eq_of_toList_eq h))
  · exact Or.inr (by
      simp only [strLe, Bool.or_eq_true, decide_eq_true_eq]
      exact Or.inr h)

/-- The string comparison is transitive. -/
lemma strLe_trans : ∀ a b c : String, strLe a b = true → strLe b c = true →
    strLe a c = true := by
  intro a b c h1 h2
  simp only [strLe, Bool.or_eq_true, decide_eq_true_eq] at h1 h2 ⊢
  rcases h1 with rfl | h1
  · exact h2
  · rcases h2 with rfl | h2
    · exact Or.inr h1
    · exact Or.inr (charListLt_trans _ _ _ h1 h2)

/-- The string comparison is antisymmetric. -/
lemma strLe_antisymm : ∀ a b : String, strLe a b = true → strLe b a = true → a = b := by
  intro a b h1 h2
  simp only [strLe, Bool.or_eq_true, decide_eq_true_eq] at h1 h2
  rcases h1 with rfl | h1
  · rfl
  · rcases h2 with rfl | h2
    · rfl
    · exact (charListLt_asymm _ _ h1 h2).elim

/-- Sorting is invariant under permutation of the input: the only
run-to-run varying order in the program (iteration over the Python set
of instrument names) is normalized away by `sorted`. -/
lemma sortNames_perm_invariant {l l2 : List String} (h : l.Perm l2) :
    sortNames l = sortNames l2 := by
  have hAnti : IsAntisymm String (fun a b => strLe a b = true) :=
    ⟨fun a b => strLe_antisymm a b⟩
  have hTotal : IsTotal String (fun a b => strLe a b = true) :=
    ⟨fun a b => strLe_total a b⟩
  have hTrans : IsTrans String (fun a b => strLe a b = true) :=
    ⟨fun a b c => strLe_trans a b c⟩
  exact @List.eq_of_perm_of_sorted _ _ hAnti _ _
    (((List.perm_insertionSort _ l).trans h).trans (List.perm_insertionSort _ l2).symm)
    (@List.sorted_insertionSort _ _ _ hTotal hTrans l)
    (@List.sorted_insertionSort _ _ _ hTotal hTrans l2)

/-- Claim C9: determinism of the rebalancer loop.  The output rows are
a pure function of the inputs; the only run-to-run varying input is the
iteration order of the instrument-name set, and any two orders that are
permutations of each other produce identical rows. -/
theorem loop_deterministic (nameOrder : List String) (h : nameOrder.Perm namesList)
    (values : Alloc) (invest : ℚ) (rounds minT maxT : ℕ) :
    mainRows nameOrder values invest rounds minT maxT
      = mainRows namesList values invest rounds minT maxT := by
  simp only [mainRows, sortNames_perm_invariant h]

/-- Witness for C9 at a concrete permuted name order. -/
theorem loop_deterministic_witness :
    mainRows ["world sc", "world", "em imi"] ⟨some 800, some 100, some 100⟩ 1000 2 1 3
      = mainRows namesList ⟨some 800, some 100, some 100⟩ 1000 2 1 3 :=
  loop_deterministic ["world sc", "world", "em imi"] (by decide)
    ⟨some 800, some 100, some 100⟩ 1000 2 1 3

/-- A key that is lexicographically no greater has a validity score no
greater: the first criterion dominates the later ones. -/
lemma key_le_vscore (x y : RankKey) (h : x.toL ≤ y.toL) : x.vscore ≤ y.vscore := by
  simp only [RankKey.toL] at h
  rcases (Prod.Lex.le_iff _ _).mp h with h1 | ⟨h1, _⟩
  · exact le_of_lt h1
  · exact le_of_eq h1

/-- On ties of the first three criteria, a lexicographically no greater
key has a distance radicand no greater. -/
lemma key_le_dist (x y : RankKey) (h : x.toL ≤ y.toL) (h1 : x.vscore = y.vscore)
    (h2 : x.notCluster = y.notCluster) (h3 : x.commas = y.commas) :
    x.dist2 ≤ y.dist2 := by
  simp only [RankKey.toL] at h
  rcases (Prod.Lex.le_iff _ _).mp h with hlt | ⟨_, h4⟩
  · exact absurd h1 (ne_of_lt hlt)
  · rcases (Prod.Lex.le_iff _ _).mp h4 with hlt2 | ⟨_, h5⟩
    · rw [h2] at hlt2
      exact absurd hlt2 (lt_irrefl _)
    · rcases (Prod.Lex.le_iff _ _).mp h5 with hlt3 | ⟨_, h6⟩
      · exact absurd h3 (ne_of_lt hlt3)
      · exact h6

/-- Claim C5: the candidate selected by one round is one of the
generated candidates (one per combination of each size in the search
range, in sorted order), and its ranking key is lexicographically
minimal among all candidate keys; in particular no candidate has a
strictly smaller validity score, and on full ties of the discrete
criteria the selected Euclidean distance (the square root of the
radicand) is also minimal. -/
theorem round_selection_minimal (values : Alloc) (invest : ℚ) (snames : List String)
    (minT maxT : ℕ) (m : String × Alloc)
    (h : doRound values invest snames minT maxT = Except.ok m) :
    (∃ etfs ∈ round_subsets snames minT maxT,
        m.1 = String.intercalate ", " etfs ∧ buy values etfs invest = Except.ok m.2) ∧
    (∃ km, candidateKey m = Except.ok km ∧
      ∀ etfs ∈ round_subsets snames minT maxT, ∀ b,
        buy values etfs invest = Except.ok b →
        ∀ kc, candidateKey (String.intercalate ", " etfs, b) = Except.ok kc →
          km.toL ≤ kc.toL ∧ km.vscore ≤ kc.vscore ∧
          (km.vscore = kc.vscore → km.notCluster = kc.notCluster → km.commas = kc.commas →
            Real.sqrt ((km.dist2 : ℝ)) ≤ Real.sqrt ((kc.dist2 : ℝ)))) := by
  simp only [doRound] at h
  cases hc : round_choices values invest snames minT maxT with
  | error e => rw [hc, err_bind] at h; exact absurd h (by simp)
  | ok cs =>
    rw [hc, ok_bind] at h
    cases hkd : round_keyed cs with
    | error e => rw [hkd, err_bind] at h; exact absurd h (by simp)
    | ok kd =>
      rw [hkd, ok_bind] at h
      cases hpm : pymin kd with
      | none => rw [hpm] at h; exact absurd h (by simp)
      | some sel =>
        rw [hpm] at h
        dsimp only at h
        cases hv : validity_score sel.1.2 with
        | error e => rw [hv, err_bind] at h; exact absurd h (by simp)
        | ok v0 =>
          rw [hv, ok_bind] at h
          have hm : m = sel.1 := ((Except.ok.injEq _ _).mp h).symm
          obtain ⟨hselmem, hmin⟩ := pymin_spec kd sel hpm
          have hf1 := mapME_forall2 _ _ _ hc
          have hf2 := mapME_forall2 _ _ _ hkd
          obtain ⟨ch, hchcs, hrel⟩ := forall2_mem_right hf2 hselmem
          have hch : ch = sel.1 ∧ candidateKey sel.1 = Except.ok sel.2 := by
            cases hck : candidateKey ch with
            | error e => rw [hck, err_bind] at hrel; exact absurd hrel (by simp)
            | ok kk =>
              rw [hck, ok_bind] at hrel
              have hpair : (ch, kk) = sel := (Except.ok.injEq _ _).mp hrel
              constructor
              · rw [← hpair]
              · rw [← hpair]; exact hck
          obtain ⟨etfs0, hetfs0, hrel0⟩ := forall2_mem_right hf1 (hch.1 ▸ hchcs)
          constructor
          · cases hb0 : buy values etfs0 invest with
            | error e => rw [hb0, err_bind] at hrel0; exact absurd hrel0 (by simp)
            | ok b0 =>
              rw [hb0, ok_bind] at hrel0
              have he0 : (String.intercalate ", " etfs0, b0) = sel.1 :=
                (Except.ok.injEq _ _).mp hrel0
              refine ⟨etfs0, hetfs0, ?_, ?_⟩
              · rw [hm, ← he0]
              · rw [hm, ← he0]; exact hb0
          · refine ⟨sel.2, by rw [hm]; exact hch.2, ?_⟩
            intro etfs hetfs b hb kc hkc
            obtain ⟨ch2, hch2, hrel2⟩ := forall2_mem_left hf1 hetfs
            rw [hb, ok_bind] at hrel2
            have hch2e : ch2 = (String.intercalate ", " etfs, b) :=
              ((Except.ok.injEq _ _).mp hrel2).symm
            obtain ⟨kel, hkel, hrel3⟩ := forall2_mem_left hf2 hch2
            rw [hch2e, hkc, ok_bind] at hrel3
            have hkele : kel = ((String.intercalate ", " etfs, b), kc) :=
              ((Except.ok.injEq _ _).mp hrel3).symm
            have hnlt : keyLt kc sel.2 = false := by
              have hx := hmin kel hkel
              rw [hkele] at hx
              exact hx
            rw [keyLt_false_iff] at hnlt
            exact ⟨hnlt, key_le_vscore _ _ hnlt, fun e1 e2 e3 =>
              sqrt_order_of_radicand_order _ _ (key_le_dist _ _ hnlt e1 e2 e3)⟩

/-- Claim C7: stall detection.  When the selected candidate of a round
equals the allocation that entered the round, the loop stops: the
stalled round and all following rounds contribute no row, the loop
still returns a valid (empty) suffix rather than an error, and the
starting row and rows of previously completed rounds are still
produced; the second conjunct exhibits this at the whole-output level
for a stall in the first remaining round. -/
theorem stall_halts (values : Alloc) (invest : ℚ) (snames : List String)
    (minT maxT i r : ℕ) (m : String × Alloc)
    (hsel : doRound values invest snames minT maxT = Except.ok m) (hstall : m.2 = values) :
    runLoop invest snames minT maxT values i (r + 1) = Except.ok [] ∧
    ∀ (nameOrder : List String) (srow : Row), sortNames nameOrder = snames →
      mkStartRow values = Except.ok srow →
      mainRows nameOrder values invest (r + 1) minT maxT = Except.ok [srow] := by
  have hrun : ∀ j : ℕ, runLoop invest snames minT maxT values j (r + 1) = Except.ok [] := by
    intro j
    simp only [runLoop, hsel, ok_bind]
    rw [if_pos hstall.symm]
  refine ⟨hrun i, ?_⟩
  intro nameOrder srow hsort hrow
  simp only [mainRows, hsort, hrow, ok_bind, hrun 0]

/-- The sorted configured instrument list. -/
lemma sortNames_namesList : sortNames namesList = ["em imi", "world", "world sc"] := by
  decide

/-- The search space for subset size exactly three. -/
lemma round_subsets_three :
    round_subsets ["em imi", "world", "world sc"] 3 3 = [["em imi", "world", "world sc"]] := by
  decide

/-- The comma join of the full sorted subset. -/
lemma inter_all :
    String.intercalate ", " ["em imi", "world", "world sc"] = "em imi, world, world sc" := by
  decide

/-- The comma count of the full sorted subset description. -/
lemma count_all : List.count (',' : Char) "em imi, world, world sc".toList = 2 := by
  decide

/-- The full subset description is not a configured cluster. -/
lemma mem_clusters_all : (("em imi, world, world sc" : String) ∈ CLUSTERS) = False := by
  simp [CLUSTERS]

set_option maxHeartbeats 4000000 in
/-- Concrete run of `buy` over the whole instrument set from the empty
allocation. -/
lemma buy_eval_all :
    buy ⟨none, none, none⟩ ["em imi", "world", "world sc"] 1000
      = Except.ok ⟨some 800, some 100, some 100⟩ := by
  simp [buy, buy_clamp_fold, buy_free, buy_step, buy_clamp_val, buy_subset_denominator,
    pymax, truncQ, Alloc.items, Alloc.total, Alloc.get, Alloc.set, targetPos, targetPos?,
    TARGET, List.lookup, min_def, max_def, ok_bind, err_bind, pure_eq_ok]
  norm_num [ok_bind, err_bind, pure_eq_ok]

set_option maxHeartbeats 4000000 in
/-- Concrete run of `buy` with a zero contribution from the exact
target allocation: the result equals the input (the stall situation). -/
lemma buy_eval_zero :
    buy ⟨some 800, some 100, some 100⟩ ["em imi", "world", "world sc"] 0
      = Except.ok ⟨some 800, some 100, some 100⟩ := by
  simp [buy, buy_clamp_fold, buy_free, buy_step, buy_clamp_val, buy_subset_denominator,
    pymax, truncQ, Alloc.items, Alloc.total, Alloc.get, Alloc.set, targetPos, targetPos?,
    TARGET, List.lookup, min_def, max_def, ok_bind, err_bind, pure_eq_ok]
  norm_num [ok_bind, err_bind, pure_eq_ok]

set_option maxHeartbeats 2000000 in
/-- The exact target allocation violates no bound. -/
lemma validity_eval_target :
    validity_score ⟨some 800, some 100, some 100⟩ = Except.ok 0 := by
  simp [validity_score, foldlME, Alloc.items, Alloc.total, targetPos, targetPos?, TARGET,
    List.lookup, ok_bind, err_bind, pure_eq_ok]
  norm_num [ok_bind, err_bind, pure_eq_ok]

set_option maxHeartbeats 2000000 in
/-- The exact target allocation has distance radicand zero. -/
lemma distance_eval_target :
    calculate_distance_sq ⟨some 800, some 100, some 100⟩ = Except.ok 0 := by
  simp [calculate_distance_sq, foldlME, namesList, Alloc.items, Alloc.total, Alloc.get,
    targetPos, targetPos?, TARGET, List.lookup, ok_bind, err_bind, pure_eq_ok]
  norm_num [ok_bind, err_bind, pure_eq_ok]

/-- The ranking key of the full-subset candidate at the exact target
allocation. -/
lemma candidateKey_eval_target :
    candidateKey ("em imi, world, world sc", ⟨some 800, some 100, some 100⟩)
      = Except.ok ⟨0, true, 2, 0⟩ := by
  simp [candidateKey, validity_eval_target, distance_eval_target, count_all,
    mem_clusters_all, ok_bind, err_bind, pure_eq_ok]

/-- The candidate list of the size-three search from the empty
allocation. -/
lemma round_choices_eval_start :
    round_choices ⟨none, none, none⟩ 1000 (sortNames namesList) 3 3
      = Except.ok [("em imi, world, world sc", ⟨some 800, some 100, some 100⟩)] := by
  simp [round_choices, sortNames_namesList, round_subsets_three, mapME, buy_eval_all,
    inter_all, ok_bind, err_bind, pure_eq_ok]

/-- The candidate list of the size-three search from the exact target
allocation with zero contribution. -/
lemma round_choices_eval_stall :
    round_choices ⟨some 800, some 100, some 100⟩ 0 (sortNames namesList) 3 3
      = Except.ok [("em imi, world, world sc", ⟨some 800, some 100, some 100⟩)] := by
  simp [round_choices, sortNames_namesList, round_subsets_three, mapME, buy_eval_zero,
    inter_all, ok_bind, err_bind, pure_eq_ok]

/-- The keyed candidate list shared by both concrete runs. -/
lemma round_keyed_eval :
    round_keyed [("em imi, world, world sc", ⟨some 800, some 100, some 100⟩)]
      = Except.ok [(("em imi, world, world sc", ⟨some 800, some 100, some 100⟩),
          ⟨0, true, 2, 0⟩)] := by
  simp [round_keyed, mapME, candidateKey_eval_target, ok_bind, err_bind, pure_eq_ok]

/-- Concrete selection of the size-three search from the empty
allocation. -/
lemma doRound_eval_start :
    doRound ⟨none, none, none⟩ 1000 (sortNames namesList) 3 3
      = Except.ok ("em imi, world, world sc", ⟨some 800, some 100, some 100⟩) := by
  simp [doRound, round_choices_eval_start, round_keyed_eval, pymin,
    validity_eval_target, ok_bind, err_bind, pure_eq_ok]

/-- Concrete stalled selection: with zero contribution from the exact
target allocation, the selected allocation equals the input. -/
lemma doRound_eval_stall :
    doRound ⟨some 800, some 100, some 100⟩ 0 (sortNames namesList) 3 3
      = Except.ok ("em imi, world, world sc", ⟨some 800, some 100, some 100⟩) := by
  simp [doRound, round_choices_eval_stall, round_keyed_eval, pymin,
    validity_eval_target, ok_bind, err_bind, pure_eq_ok]

/-- Witness for C5 at a concrete round: the selected candidate of the
size-three search from the empty allocation is one of the generated
candidates. -/
theorem round_selection_minimal_witness :
    ∃ etfs ∈ round_subsets (sortNames namesList) 3 3,
      ("em imi, world, world sc", Alloc.mk (some 800) (some 100) (some 100)).1
          = String.intercalate ", " etfs ∧
        buy ⟨none, none, none⟩ etfs 1000
          = Except.ok ("em imi, world, world sc",
              Alloc.mk (some 800) (some 100) (some 100)).2 :=
  (round_selection_minimal ⟨none, none, none⟩ 1000 (sortNames namesList) 3 3
    ("em imi, world, world sc", ⟨some 800, some 100, some 100⟩) doRound_eval_start).1

/-- Witness for C7 at a concrete stalled round. -/
theorem stall_halts_witness :
    runLoop 0 (sortNames namesList) 3 3 ⟨some 800, some 100, some 100⟩ 0 5
      = Except.ok [] :=
  (stall_halts ⟨some 800, some 100, some 100⟩ 0 (sortNames namesList) 3 3 0 4
    ("em imi, world, world sc", ⟨some 800, some 100, some 100⟩) doRound_eval_stall rfl).1

end Advisor
